import Mathlib

/-!
Verification of the subset-sum search in `find_solutions.py`.

The program is embedded shallowly: Python floats become rationals (`ℚ`),
Python `round` becomes decimal round-half-to-even on rationals, Python
exceptions become `Except Err`, and Python `set` objects become
duplicate-free lists built by insert-if-absent.  The recursion of
`find_constituents` is driven by an explicit fuel argument; the wrapper
supplies `constituents.length + 1` units of fuel, which is shown to be
sufficient (the fuel-exhaustion error is unreachable).
-/

set_option allowUnsafeReducibility true
attribute [local semireducible] Rat.add Rat.sub Rat.mul Rat.inv

/-- An index-subset: the indices which sum to the desired total
(Python type alias `SOLUTION = tuple[int, ...]`). -/
abbrev Solution := List ℕ

/-- The Python exceptions the embedded code can raise, plus the
fuel-exhaustion marker of the embedding (proved unreachable). -/
inductive Err where
  | valueError : Err
  | indexError : Err
  | fuelExhausted : Err
deriving DecidableEq, Repr

/-- Round a rational to the nearest integer, ties to even: the semantics of
Python built-in `round` on a real value. -/
def roundHalfEven (x : ℚ) : ℤ :=
  let f := ⌊x⌋
  let frac := x - f
  if frac < 1 / 2 then f
  else if 1 / 2 < frac then f + 1
  else if f % 2 = 0 then f else f + 1

/-- Python `round(x, p)`: round to `p` decimal places, ties to even. -/
def roundTo (p : ℕ) (x : ℚ) : ℚ :=
  (roundHalfEven (x * 10 ^ p) : ℚ) / 10 ^ p

/-- Python `set.add` on a set modelled as a duplicate-free list:
append the element unless it is already present. -/
def setInsert (x : Solution) (l : List Solution) : List Solution :=
  if x ∈ l then l else l ++ [x]

/-- The start index of the scan in `find_constituents`: one past the last
used index (`used_indices[-1] + 1`), or `0` when no index is used yet. -/
def startIndex (used : List ℕ) : ℕ :=
  match used.getLast? with
  | none => 0
  | some l => l + 1

/-- The loop body of `find_constituents` (source lines 116-133): scan the
candidate indices `js` in order, skipping a candidate that overshoots the
pruning bound or is already used; record a solution when the new remainder
is within tolerance, otherwise recurse through `recur` and merge the
returned solutions into the accumulator.  `recur` is the recursive call
(which in the source does not forward `precision`/`tol`). -/
def findLoop (recur : ℚ → List ℕ → Except Err (List Solution))
    (cs : List ℚ) (prec : ℕ) (tol : ℚ) (t minRem : ℚ) (used : List ℕ) :
    List ℕ → List Solution → Except Err (List Solution)
  | [], acc => Except.ok acc
  | j :: js, acc =>
    let c := roundTo prec (cs.getD j 0)
    if c > t + tol + |minRem| then
      findLoop recur cs prec tol t minRem used js acc
    else if j ∈ used then
      findLoop recur cs prec tol t minRem used js acc
    else
      let newTotal := t - c
      if -tol ≤ newTotal ∧ newTotal ≤ tol then
        findLoop recur cs prec tol t minRem used js
          (setInsert (List.insertionSort (fun a b => a ≤ b) (used ++ [j])) acc)
      else
        match recur newTotal (used ++ [j]) with
        | Except.error e => Except.error e
        | Except.ok sols =>
          findLoop recur cs prec tol t minRem used js
            (sols.foldl (fun a s => setInsert s a) acc)

/-- One call frame of `find_constituents` (source lines 102-134).  The
remaining target is rounded to `prec` decimals, the pruning bound is the
minimum not-yet-used constituent clamped to at most `0` (raising
`ValueError` when every constituent is used, as Python `min([])` does),
and the scan runs over indices `start .. cs.length - 1`.  The recursive
call passes `precision = 3` and `tol = 1/10000`: the source omits these
keyword arguments in the recursion, so the defaults are reinstated. -/
def findConstituentsAux : ℕ → List ℚ → ℕ → ℚ → ℚ → List ℕ →
    Except Err (List Solution)
  | 0, _, _, _, _, _ => Except.error Err.fuelExhausted
  | fuel + 1, cs, prec, tol, total, used =>
    let start := startIndex used
    let t := roundTo prec total
    let unusedVals :=
      ((List.range cs.length).filter (fun i => decide (i ∉ used))).map
        (fun i => cs.getD i 0)
    match unusedVals with
    | [] => Except.error Err.valueError
    | v :: vs =>
      let minRem := min (vs.foldl min v) 0
      findLoop (fun t2 u2 => findConstituentsAux fuel cs 3 (1 / 10000) t2 u2)
        cs prec tol t minRem used (List.range' start (cs.length - start)) []

/-- Python `find_constituents(constituents, total, precision=3, tol=1e-4)`:
top-level entry with an empty used-index list and enough fuel for the
deepest possible recursion. -/
def find_constituents (cs : List ℚ) (total : ℚ)
    (prec : ℕ := 3) (tol : ℚ := 1 / 10000) : Except Err (List Solution) :=
  findConstituentsAux (cs.length + 1) cs prec tol total []

/-- Modelled from the spec: the variant of `findConstituentsAux` in which
the per-invocation `precision` and `tol` are forwarded to every recursive
call, as the specification requires ("must be applied consistently ...
wherever sums are compared").  Identical to `findConstituentsAux` except
for the arguments of the recursive call. -/
def findConstituentsSpecAux : ℕ → List ℚ → ℕ → ℚ → ℚ → List ℕ →
    Except Err (List Solution)
  | 0, _, _, _, _, _ => Except.error Err.fuelExhausted
  | fuel + 1, cs, prec, tol, total, used =>
    let start := startIndex used
    let t := roundTo prec total
    let unusedVals :=
      ((List.range cs.length).filter (fun i => decide (i ∉ used))).map
        (fun i => cs.getD i 0)
    match unusedVals with
    | [] => Except.error Err.valueError
    | v :: vs =>
      let minRem := min (vs.foldl min v) 0
      findLoop (fun t2 u2 => findConstituentsSpecAux fuel cs prec tol t2 u2)
        cs prec tol t minRem used (List.range' start (cs.length - start)) []

/-- Modelled from the spec: top-level entry of the consistent-parameter
variant of the search. -/
def find_constituents_spec (cs : List ℚ) (total : ℚ)
    (prec : ℕ := 3) (tol : ℚ := 1 / 10000) : Except Err (List Solution) :=
  findConstituentsSpecAux (cs.length + 1) cs prec tol total []

/-- The loop body of `filter_unique_solutions` (source lines 165-176):
scan the first total's solutions in order; skip a solution that reuses an
already-used index; when this is the last solution set (`lastSet`), the
accepted solution alone forms a combination, otherwise recurse through
`recur` with the used-index set enlarged and prepend the accepted
solution to every returned combination. -/
def filterLoop (recur : Finset ℕ → Except Err (List (List Solution)))
    (lastSet : Bool) (used : Finset ℕ) :
    List Solution → List (List Solution) → Except Err (List (List Solution))
  | [], acc => Except.ok acc
  | s :: ss, acc =>
    if ∃ i ∈ s, i ∈ used then
      filterLoop recur lastSet used ss acc
    else if lastSet then
      filterLoop recur lastSet used ss (acc ++ [[s]])
    else
      match recur (used ∪ s.toFinset) with
      | Except.error e => Except.error e
      | Except.ok news =>
        filterLoop recur lastSet used ss (acc ++ news.map (fun sol => s :: sol))

/-- Python `filter_unique_solutions(solutions, used_indices)` (source lines
137-177).  Accessing `solutions[0]` on an empty list raises `IndexError`. -/
def filterUniqueAux : List (List Solution) → Finset ℕ →
    Except Err (List (List Solution))
  | [], _ => Except.error Err.indexError
  | first :: rest, used =>
    filterLoop (fun u => filterUniqueAux rest u) rest.isEmpty used first []

/-- Python `filter_unique_solutions(solutions)`: public entry with an
empty used-index set. -/
def filter_unique_solutions (sols : List (List Solution)) :
    Except Err (List (List Solution)) :=
  filterUniqueAux sols ∅

/-- The per-total loop of `find_unique_solutions` (source lines 252-260):
run `find_constituents` for each total in order, collecting the solution
sets; an exception in any search propagates. -/
def perTotalSolutions (cs : List ℚ) (prec : ℕ) (tol : ℚ) :
    List ℚ → Except Err (List (List Solution))
  | [] => Except.ok []
  | t :: ts =>
    match find_constituents cs t prec tol with
    | Except.error e => Except.error e
    | Except.ok s =>
      match perTotalSolutions cs prec tol ts with
      | Except.error e => Except.error e
      | Except.ok rest => Except.ok (s :: rest)

/-- Python `find_unique_solutions(constituents, totals, tol, precision)`
(source lines 212-271, printing omitted): run the per-total searches in
order, then combine the per-total solution sets. -/
def find_unique_solutions (cs : List ℚ) (totals : List ℚ)
    (tol : ℚ := 1 / 10000) (prec : ℕ := 3) :
    Except Err (List (List Solution)) :=
  match perTotalSolutions cs prec tol totals with
  | Except.error e => Except.error e
  | Except.ok perTotal => filter_unique_solutions perTotal

/-- The sum of the constituent values selected by an index-subset. -/
def sumAt (cs : List ℚ) (s : Solution) : ℚ :=
  (s.map (fun i => cs.getD i 0)).sum

/-- Equality of `Except` results is decidable when both components are. -/
instance instDecidableEqExcept {ε α : Type} [DecidableEq ε] [DecidableEq α] :
    DecidableEq (Except ε α) := fun x y =>
  match x, y with
  | Except.ok a, Except.ok b =>
    if h : a = b then isTrue (by rw [h])
    else isFalse (fun hc => h (by injection hc))
  | Except.ok _, Except.error _ => isFalse (fun hc => Except.noConfusion hc)
  | Except.error _, Except.ok _ => isFalse (fun hc => Except.noConfusion hc)
  | Except.error e, Except.error f =>
    if h : e = f then isTrue (by rw [h])
    else isFalse (fun hc => h (by injection hc))

/-- Membership in the list-modelled set after an insertion. -/
theorem mem_setInsert {x y : Solution} {l : List Solution} :
    y ∈ setInsert x l ↔ y ∈ l ∨ y = x := by
  unfold setInsert
  split
  · next hx =>
    constructor
    · exact fun h => Or.inl h
    · rintro (h | rfl)
      · exact h
      · exact hx
  · simp

/-- Insertion into the list-modelled set preserves freedom from duplicates. -/
theorem setInsert_nodup {x : Solution} {l : List Solution} (h : l.Nodup) :
    (setInsert x l).Nodup := by
  unfold setInsert
  split
  · exact h
  · next hx =>
    simp [List.nodup_append, h, hx]

/-- Folding insertions preserves freedom from duplicates. -/
theorem foldl_setInsert_nodup (sols : List Solution) :
    ∀ acc : List Solution, acc.Nodup →
      (sols.foldl (fun a s => setInsert s a) acc).Nodup := by
  induction sols with
  | nil => intro acc h; exact h
  | cons s ss ih => intro acc h; exact ih _ (setInsert_nodup h)

/-- Anything in a fold of insertions was in the accumulator or is one of
the inserted elements. -/
theorem mem_foldl_setInsert (sols : List Solution) :
    ∀ (acc : List Solution) (y : Solution),
      y ∈ sols.foldl (fun a s => setInsert s a) acc → y ∈ acc ∨ y ∈ sols := by
  induction sols with
  | nil => intro acc y h; exact Or.inl h
  | cons s ss ih =>
    intro acc y hy
    rcases ih _ y hy with h | h
    · rcases mem_setInsert.mp h with h2 | h2
      · exact Or.inl h2
      · exact Or.inr (h2 ▸ List.mem_cons_self s ss)
    · exact Or.inr (List.mem_cons_of_mem _ h)

/-- A duplicate-free list of indices all below `n` that misses some index
below `n` has fewer than `n` elements. -/
theorem length_lt_of_nodup_missing (used : List ℕ) (n i : ℕ)
    (hnd : used.Nodup) (hb : ∀ x ∈ used, x < n) (hi : i < n)
    (hiu : i ∉ used) : used.length < n := by
  have h1 : used.toFinset.card = used.length := List.toFinset_card_of_nodup hnd
  have h2 : used.toFinset ⊆ (Finset.range n).erase i := by
    intro x hx
    rw [List.mem_toFinset] at hx
    exact Finset.mem_erase.mpr
      ⟨fun hxi => hiu (hxi ▸ hx), Finset.mem_range.mpr (hb x hx)⟩
  have h3 := Finset.card_le_card h2
  rw [Finset.card_erase_of_mem (Finset.mem_range.mpr hi),
    Finset.card_range] at h3
  omega

/-- In a strictly increasing used-index list every index is below the scan
start (one past the last used index). -/
theorem lt_startIndex :
    ∀ used : List ℕ, List.Pairwise (· < ·) used →
      ∀ x ∈ used, x < startIndex used := by
  intro used
  induction used with
  | nil => simp
  | cons a t ih =>
    intro hp x hx
    cases t with
    | nil =>
      rw [List.mem_singleton] at hx
      subst hx
      simp [startIndex]
    | cons b t2 =>
      have hstart : startIndex (a :: b :: t2) = startIndex (b :: t2) := by
        unfold startIndex
        rw [List.getLast?_cons_cons]
      rw [hstart]
      rcases List.mem_cons.mp hx with rfl | hx2
      · have hab : x < b := (List.pairwise_cons.mp hp).1 b (List.mem_cons_self b t2)
        have hb := ih (List.pairwise_cons.mp hp).2 b (List.mem_cons_self b t2)
        omega
      · exact ih (List.pairwise_cons.mp hp).2 x hx2

/-- Appending a strictly larger index keeps the used-index list strictly
increasing. -/
theorem pairwise_lt_append (used : List ℕ) (j : ℕ)
    (hu : List.Pairwise (· < ·) used) (hjgt : ∀ x ∈ used, x < j) :
    List.Pairwise (· < ·) (used ++ [j]) := by
  rw [List.pairwise_append]
  refine ⟨hu, List.pairwise_singleton _ _, ?_⟩
  intro x hx y hy
  rw [List.mem_singleton] at hy
  exact hy ▸ hjgt x hx

/-- Error classification through the scan loop: when every recursive call
can only fail with `ValueError`, so can the loop. -/
theorem findLoop_error_classify
    (recur : ℚ → List ℕ → Except Err (List Solution)) (cs : List ℚ)
    (prec : ℕ) (tol t minRem : ℚ) (used : List ℕ)
    (H : ∀ t2 j e2, j < cs.length → j ∉ used →
      recur t2 (used ++ [j]) = Except.error e2 → e2 = Err.valueError) :
    ∀ (js : List ℕ) (acc : List Solution) (e : Err),
      (∀ j ∈ js, j < cs.length) →
      findLoop recur cs prec tol t minRem used js acc = Except.error e →
      e = Err.valueError := by
  intro js
  induction js with
  | nil =>
    intro acc e _ h
    simp [findLoop] at h
  | cons j js ih =>
    intro acc e hjs h
    have hj : j < cs.length := hjs j (List.mem_cons_self j js)
    have hjs2 : ∀ x ∈ js, x < cs.length :=
      fun x hx => hjs x (List.mem_cons_of_mem _ hx)
    simp only [findLoop] at h
    split at h
    · exact ih _ _ hjs2 h
    · split at h
      · exact ih _ _ hjs2 h
      · next hused =>
        split at h
        · exact ih _ _ hjs2 h
        · split at h
          · next e2 heq =>
            cases h
            exact H _ j _ hj hused heq
          · exact ih _ _ hjs2 h

/-- Error classification for the search: with enough fuel, the only
possible error is the `ValueError` of the pruning step. -/
theorem findConstituentsAux_error_classify :
    ∀ (fuel : ℕ) (cs : List ℚ) (prec : ℕ) (tol total : ℚ)
      (used : List ℕ) (e : Err),
      used.Nodup → (∀ x ∈ used, x < cs.length) →
      cs.length - used.length < fuel →
      findConstituentsAux fuel cs prec tol total used = Except.error e →
      e = Err.valueError := by
  intro fuel
  induction fuel with
  | zero =>
    intro cs prec tol total used e _ _ hlt
    omega
  | succ fuel ih =>
    intro cs prec tol total used e hnd hb hlt h
    simp only [findConstituentsAux] at h
    split at h
    · next heq =>
      cases h
      rfl
    · next v vs heq =>
      have hfil :
          (List.range cs.length).filter (fun i => decide (i ∉ used)) ≠ [] := by
        intro h0
        rw [h0] at heq
        simp at heq
      obtain ⟨i, hi⟩ := List.exists_mem_of_ne_nil _ hfil
      have hi2 := List.mem_filter.mp hi
      have hiu : i ∉ used := by simpa using hi2.2
      have hin : i < cs.length := List.mem_range.mp hi2.1
      have hulen : used.length < cs.length :=
        length_lt_of_nodup_missing used cs.length i hnd hb hin hiu
      refine findLoop_error_classify _ cs prec tol _ _ used ?_ _ _ e ?_ h
      · intro t2 j e2 hjlen hjused hrec
        refine ih cs 3 (1 / 10000) t2 (used ++ [j]) e2 ?_ ?_ ?_ hrec
        · simp [List.nodup_append, hnd, hjused]
        · intro x hx
          rcases List.mem_append.mp hx with h3 | h3
          · exact hb x h3
          · rw [List.mem_singleton] at h3
            exact h3 ▸ hjlen
        · simp only [List.length_append, List.length_singleton]
          omega
      · intro x hx
        have := List.mem_range'_1.mp hx
        omega

/-- Canonical-form invariant through the scan loop: with a strictly
increasing, in-range used-index list, every solution the loop returns is
a strictly increasing, in-range, duplicate-free index list, and the
returned set holds no duplicate entries. -/
theorem findLoop_ok_canonical
    (recur : ℚ → List ℕ → Except Err (List Solution)) (cs : List ℚ)
    (prec : ℕ) (tol t minRem : ℚ) (used : List ℕ)
    (hu : List.Pairwise (· < ·) used) (hub : ∀ x ∈ used, x < cs.length)
    (H : ∀ t2 j res2, j < cs.length → (∀ x ∈ used, x < j) → j ∉ used →
      recur t2 (used ++ [j]) = Except.ok res2 →
      res2.Nodup ∧ ∀ s ∈ res2,
        List.Pairwise (· < ·) s ∧ ∀ i ∈ s, i < cs.length) :
    ∀ (js : List ℕ) (acc res : List Solution),
      (∀ j ∈ js, j < cs.length ∧ ∀ x ∈ used, x < j) →
      acc.Nodup →
      (∀ s ∈ acc, List.Pairwise (· < ·) s ∧ ∀ i ∈ s, i < cs.length) →
      findLoop recur cs prec tol t minRem used js acc = Except.ok res →
      res.Nodup ∧ ∀ s ∈ res,
        List.Pairwise (· < ·) s ∧ ∀ i ∈ s, i < cs.length := by
  intro js
  induction js with
  | nil =>
    intro acc res _ hnd hg h
    simp only [findLoop] at h
    cases h
    exact ⟨hnd, hg⟩
  | cons j js ih =>
    intro acc res hjs hnd hg h
    obtain ⟨hjlen, hjgt⟩ := hjs j (List.mem_cons_self j js)
    have hjs2 : ∀ x ∈ js, x < cs.length ∧ ∀ y ∈ used, y < x :=
      fun x hx => hjs x (List.mem_cons_of_mem _ hx)
    simp only [findLoop] at h
    split at h
    · exact ih _ _ hjs2 hnd hg h
    · split at h
      · exact ih _ _ hjs2 hnd hg h
      · next hused =>
        split at h
        · have hsorted : List.Pairwise (· < ·) (used ++ [j]) :=
            pairwise_lt_append used j hu hjgt
          have hsort_eq :
              List.insertionSort (fun a b => a ≤ b) (used ++ [j]) =
                used ++ [j] :=
            List.Sorted.insertionSort_eq (hsorted.imp le_of_lt)
          refine ih _ _ hjs2 (setInsert_nodup hnd) ?_ h
          intro s hs
          rcases mem_setInsert.mp hs with h2 | h2
          · exact hg s h2
          · subst h2
            rw [hsort_eq]
            refine ⟨hsorted, ?_⟩
            intro i hi
            rcases List.mem_append.mp hi with h3 | h3
            · exact hub i h3
            · rw [List.mem_singleton] at h3
              exact h3 ▸ hjlen
        · split at h
          · next e2 heq => cases h
          · next sols heq =>
            have hgood := H _ j sols hjlen hjgt hused heq
            refine ih _ _ hjs2 (foldl_setInsert_nodup _ _ hnd) ?_ h
            intro s hs
            rcases mem_foldl_setInsert _ _ s hs with h2 | h2
            · exact hg s h2
            · exact hgood.2 s h2

/-- Canonical-form invariant for the search: from a strictly increasing,
in-range used-index list, every returned index-subset is strictly
increasing and in range, and the returned set holds no duplicates. -/
theorem findConstituentsAux_ok_canonical :
    ∀ (fuel : ℕ) (cs : List ℚ) (prec : ℕ) (tol total : ℚ)
      (used : List ℕ) (res : List Solution),
      List.Pairwise (· < ·) used → (∀ x ∈ used, x < cs.length) →
      findConstituentsAux fuel cs prec tol total used = Except.ok res →
      res.Nodup ∧ ∀ s ∈ res,
        List.Pairwise (· < ·) s ∧ ∀ i ∈ s, i < cs.length := by
  intro fuel
  induction fuel with
  | zero =>
    intro cs prec tol total used res _ _ h
    simp [findConstituentsAux] at h
  | succ fuel ih =>
    intro cs prec tol total used res hu hub h
    simp only [findConstituentsAux] at h
    split at h
    · cases h
    · next v vs heq =>
      refine findLoop_ok_canonical _ cs prec tol _ _ used hu hub ?_ _ _ res
        ?_ (by simp) (by simp) h
      · intro t2 j res2 hjlen hjgt hjused hrec
        refine ih cs 3 (1 / 10000) t2 (used ++ [j]) res2
          (pairwise_lt_append used j hu hjgt) ?_ hrec
        intro x hx
        rcases List.mem_append.mp hx with h3 | h3
        · exact hub x h3
        · rw [List.mem_singleton] at h3
          exact h3 ▸ hjlen
      · intro j hj
        have hmem := List.mem_range'_1.mp hj
        refine ⟨by omega, ?_⟩
        intro x hx
        have := lt_startIndex used hu x hx
        omega

/-- C1 (counterexample): on the non-empty constituent list `[1]` with total
`5`, the search raises `ValueError` (the recursion branch that uses the
only constituent reaches a state where every constituent is used and
`min([])` fails), so the core does have a fatal condition over its valid
input domain. -/
theorem C1_counterexample :
    find_constituents [1] 5 3 (1 / 10000) = Except.error Err.valueError := by
  decide

/-- C1 (amended): for every constituent list, total, precision and
tolerance, the search terminates within the fixed recursion-depth budget
and either returns a set of index-subsets or raises the pruning step's
`ValueError`; no other failure (in particular no unbounded recursion) is
possible. -/
theorem C1_total_or_valueError (cs : List ℚ) (total : ℚ) (prec : ℕ)
    (tol : ℚ) :
    (∃ res, find_constituents cs total prec tol = Except.ok res) ∨
      find_constituents cs total prec tol = Except.error Err.valueError := by
  cases h : find_constituents cs total prec tol with
  | ok res => exact Or.inl ⟨res, rfl⟩
  | error e =>
    have he : e = Err.valueError := by
      refine findConstituentsAux_error_classify (cs.length + 1) cs prec tol
        total [] e (by simp) (by simp) (by omega) ?_
      simpa [find_constituents] using h
    exact Or.inr (by rw [he])

/-- C2 (evaluation at the failing input): for constituents `[10, -3, -3]`
and total `4`, the subset of all three indices sums to the total exactly,
yet the search returns no solution: the pruning bound
`total + tol + |min_remaining| = 7.0001` skips the participating
constituent `10`. -/
theorem C2_eval :
    find_constituents [10, -3, -3] 4 3 (1 / 10000) = Except.ok [] ∧
      sumAt [10, -3, -3] [0, 1, 2] = 4 := by
  decide

/-- C3 (evaluation at the failing input): with `precision = 3` and
`tol = 3/2`, the source returns no solution for constituents `[1, 1, 5]`
and total `3`, while the spec-modelled variant that forwards `precision`
and `tol` to every recursion depth returns the subset `(0, 1)`; the
source's recursive call silently reverts to the defaults `3` and `1e-4`. -/
theorem C3_eval :
    find_constituents [1, 1, 5] 3 3 (3 / 2) = Except.ok [] ∧
      find_constituents_spec [1, 1, 5] 3 3 (3 / 2) = Except.ok [[0, 1]] := by
  decide

/-- C4 (counterexample): calling `find_constituents` with an empty
constituent list raises `ValueError` (from `min([])` in the pruning step)
instead of returning an empty solution set. -/
theorem C4_counterexample :
    find_constituents [] 0 3 (1 / 10000) = Except.error Err.valueError := rfl

/-- C4 (amended): for every total, precision and tolerance, calling
`find_constituents` with an empty constituent list raises `ValueError`
from the pruning step's minimum over an empty collection, rather than
returning an empty solution set. -/
theorem C4_empty_raises (total : ℚ) (prec : ℕ) (tol : ℚ) :
    find_constituents [] total prec tol = Except.error Err.valueError := rfl

/-- C5 (evaluation at the failing input): with `precision = 4` and
`tol = 1e-4`, the search on constituents `[1, 1]` and total `2.0005`
returns the subset `(0, 1)`, whose values sum to `2`, which differs from
the total by `5e-4 > tol`: the recursion rounds the remainder `1.0005` at
the default precision `3` (to `1`) instead of the caller's `4`, so the
returned subset does not sum to the target within `tol`. -/
theorem C5_eval :
    find_constituents [1, 1] (4001 / 2000) 4 (1 / 10000) =
        Except.ok [[0, 1]] ∧
      ¬ |(4001 / 2000 : ℚ) - sumAt [1, 1] [0, 1]| ≤ 1 / 10000 := by
  decide

/-- C7: for constituents `[1,2,3,4,5,6]` and totals `[12, 9]`, the
pipeline yields exactly `5` unique combinations, each pairing a subset
summing to `12` (for the first total) with a disjoint subset summing to
`9` (for the second). -/
theorem C7_end_to_end :
    ∃ res,
      find_unique_solutions [1, 2, 3, 4, 5, 6] [12, 9] (1 / 10000) 3 =
          Except.ok res ∧
        res.length = 5 ∧
        ∀ c ∈ res, c.length = 2 ∧
          sumAt [1, 2, 3, 4, 5, 6] (c.getD 0 []) = 12 ∧
          sumAt [1, 2, 3, 4, 5, 6] (c.getD 1 []) = 9 ∧ c.flatten.Nodup := by
  refine ⟨[[[0, 1, 2, 5], [3, 4]], [[0, 1, 3, 4], [2, 5]],
    [[0, 4, 5], [1, 2, 3]], [[1, 3, 5], [0, 2, 4]],
    [[2, 3, 4], [0, 1, 5]]], by decide, rfl, by decide⟩

/-- C10: calling `filter_unique_solutions` with an empty list of per-total
solution sets raises `IndexError` when accessing the first element, rather
than returning a list of combinations. -/
theorem C10_empty_input :
    filter_unique_solutions [] = Except.error Err.indexError := rfl

/-- C9: every index-subset returned by `find_constituents` is a strictly
increasing (hence duplicate-free) sequence of in-range indices into the
constituent list, and each subset appears at most once in the returned
set regardless of the recursion path that discovered it. -/
theorem C9_canonical (cs : List ℚ) (total : ℚ) (prec : ℕ) (tol : ℚ)
    (res : List Solution)
    (hok : find_constituents cs total prec tol = Except.ok res) :
    res.Nodup ∧ ∀ s ∈ res,
      List.Pairwise (· < ·) s ∧ ∀ i ∈ s, i < cs.length :=
  findConstituentsAux_ok_canonical (cs.length + 1) cs prec tol total [] res
    (by simp) (by simp) (by simpa [find_constituents] using hok)

/-- C9 (witness): the search on `[1, 2]` with total `3` returns exactly
the subset `(0, 1)`, which is strictly increasing and in range. -/
theorem C9_witness :
    ([[0, 1]] : List Solution).Nodup ∧
      ∀ s ∈ ([[0, 1]] : List Solution),
        List.Pairwise (· < ·) s ∧ ∀ i ∈ s, i < ([1, 2] : List ℚ).length :=
  C9_canonical [1, 2] 3 3 (1 / 10000) [[0, 1]] (by decide)

/-- Where the combinations produced by the combiner loop come from: each
one was already accumulated, or extends an accepted head solution (one
that reuses no used index), either alone (last solution set) or prepended
to a combination returned by the recursive call. -/
theorem mem_filterLoop_ok
    (recur : Finset ℕ → Except Err (List (List Solution)))
    (lastSet : Bool) (used : Finset ℕ) :
    ∀ (ss : List Solution) (acc res : List (List Solution)),
      filterLoop recur lastSet used ss acc = Except.ok res →
      ∀ c ∈ res,
        c ∈ acc ∨ ∃ s ∈ ss, (∀ i ∈ s, i ∉ used) ∧
          ((lastSet = true ∧ c = [s]) ∨
            (lastSet = false ∧ ∃ sols sol,
              recur (used ∪ s.toFinset) = Except.ok sols ∧ sol ∈ sols ∧
                c = s :: sol)) := by
  intro ss
  induction ss with
  | nil =>
    intro acc res h c hc
    simp only [filterLoop] at h
    cases h
    exact Or.inl hc
  | cons s ss ih =>
    intro acc res h c hc
    simp only [filterLoop] at h
    split at h
    · rcases ih _ _ h c hc with h2 | ⟨s2, hs2, hni, hrest⟩
      · exact Or.inl h2
      · exact Or.inr ⟨s2, List.mem_cons_of_mem _ hs2, hni, hrest⟩
    · next hno =>
      have hnos : ∀ i ∈ s, i ∉ used := fun i hi hin => hno ⟨i, hi, hin⟩
      split at h
      · next hlast =>
        rcases ih _ _ h c hc with h2 | ⟨s2, hs2, hni, hrest⟩
        · rcases List.mem_append.mp h2 with h3 | h3
          · exact Or.inl h3
          · rw [List.mem_singleton] at h3
            exact Or.inr ⟨s, List.mem_cons_self s ss, hnos, Or.inl ⟨hlast, h3⟩⟩
        · exact Or.inr ⟨s2, List.mem_cons_of_mem _ hs2, hni, hrest⟩
      · next hlast =>
        have hlast2 : lastSet = false := by simpa using hlast
        split at h
        · next e heq => cases h
        · next sols heq =>
          rcases ih _ _ h c hc with h2 | ⟨s2, hs2, hni, hrest⟩
          · rcases List.mem_append.mp h2 with h3 | h3
            · exact Or.inl h3
            · rw [List.mem_map] at h3
              obtain ⟨sol, hsol, rfl⟩ := h3
              exact Or.inr ⟨s, List.mem_cons_self s ss, hnos,
                Or.inr ⟨hlast2, sols, sol, heq, hsol, rfl⟩⟩
          · exact Or.inr ⟨s2, List.mem_cons_of_mem _ hs2, hni, hrest⟩

/-- Shape and order preservation for the combiner: each returned
combination has one entry per solution set, and its `i`-th entry is drawn
from the `i`-th solution set. -/
theorem filterUniqueAux_shape :
    ∀ (sols : List (List Solution)) (used : Finset ℕ)
      (res : List (List Solution)),
      filterUniqueAux sols used = Except.ok res →
      ∀ c ∈ res, c.length = sols.length ∧
        ∀ (i : ℕ) (hi : i < sols.length), ∃ hc : i < c.length,
          c.get ⟨i, hc⟩ ∈ sols.get ⟨i, hi⟩ := by
  intro sols
  induction sols with
  | nil =>
    intro used res h
    simp [filterUniqueAux] at h
  | cons first rest ih =>
    intro used res h c hc
    simp only [filterUniqueAux] at h
    rcases mem_filterLoop_ok _ _ _ _ _ _ h c hc with h2 | ⟨s, hs, _, hrest⟩
    · simp at h2
    · rcases hrest with ⟨hlast, rfl⟩ | ⟨_, sols2, sol, hrec, hsol, rfl⟩
      · have hrest0 : rest = [] := List.isEmpty_iff.mp hlast
        subst hrest0
        refine ⟨by simp, ?_⟩
        intro i hi
        have hi0 : i = 0 := by
          simp only [List.length_cons, List.length_nil] at hi
          omega
        subst hi0
        exact ⟨by simp, by simpa using hs⟩
      · obtain ⟨hlen, hpos⟩ := ih _ _ hrec sol hsol
        refine ⟨by simpa using hlen, ?_⟩
        intro i hi
        cases i with
        | zero => exact ⟨by simp, by simpa using hs⟩
        | succ i2 =>
          have hi2 : i2 < rest.length := by simpa using hi
          obtain ⟨hc2, hmem⟩ := hpos i2 hi2
          refine ⟨by simpa using hc2, ?_⟩
          simpa using hmem

/-- Disjointness for the combiner: when every index-subset in every
solution set is duplicate-free, every returned combination's flattened
index list is duplicate-free and avoids the running used-index set. -/
theorem filterUniqueAux_disjoint :
    ∀ (sols : List (List Solution)) (used : Finset ℕ)
      (res : List (List Solution)),
      filterUniqueAux sols used = Except.ok res →
      (∀ S ∈ sols, ∀ s ∈ S, s.Nodup) →
      ∀ c ∈ res, c.flatten.Nodup ∧ ∀ x ∈ c.flatten, x ∉ used := by
  intro sols
  induction sols with
  | nil =>
    intro used res h
    simp [filterUniqueAux] at h
  | cons first rest ih =>
    intro used res h hnd c hc
    simp only [filterUniqueAux] at h
    rcases mem_filterLoop_ok _ _ _ _ _ _ h c hc with h2 | ⟨s, hs, hni, hrest⟩
    · simp at h2
    · have hsnd : s.Nodup := hnd first (List.mem_cons_self first rest) s hs
      rcases hrest with ⟨_, rfl⟩ | ⟨_, sols2, sol, hrec, hsol, rfl⟩
      · refine ⟨by simpa using hsnd, ?_⟩
        intro x hx
        exact hni x (by simpa using hx)
      · have hsub := ih (used ∪ s.toFinset) sols2 hrec
          (fun S hS => hnd S (List.mem_cons_of_mem _ hS)) sol hsol
        have hflat : (s :: sol).flatten = s ++ sol.flatten := rfl
        constructor
        · rw [hflat, List.nodup_append]
          refine ⟨hsnd, hsub.1, ?_⟩
          intro x hxs hxf
          exact hsub.2 x hxf
            (Finset.mem_union_right _ (List.mem_toFinset.mpr hxs))
        · intro x hx
          rw [hflat] at hx
          rcases List.mem_append.mp hx with h3 | h3
          · exact hni x h3
          · intro hxu
            exact hsub.2 x h3 (Finset.mem_union_left _ hxu)

/-- C8: every combination returned by `filter_unique_solutions` contains
exactly one index-subset per total, and its element `i` is drawn from
(and so solves) the `i`-th total's solution set in the input order. -/
theorem C8_shape (sols : List (List Solution)) (res : List (List Solution))
    (hok : filter_unique_solutions sols = Except.ok res) :
    ∀ c ∈ res, c.length = sols.length ∧
      ∀ (i : ℕ) (hi : i < sols.length), ∃ hc : i < c.length,
        c.get ⟨i, hc⟩ ∈ sols.get ⟨i, hi⟩ :=
  filterUniqueAux_shape sols ∅ res
    (by simpa [filter_unique_solutions] using hok)

/-- C8 (witness): on the two singleton solution sets for two totals, the
returned combination `[[0], [1]]` has one entry per total. -/
theorem C8_witness :
    ([[0], [1]] : List Solution).length =
      ([[[0]], [[1]]] : List (List Solution)).length :=
  (C8_shape [[[0]], [[1]]] [[[0], [1]]] (by decide) [[0], [1]]
    (by decide)).1

/-- C6: when every index-subset in every per-total solution set is
duplicate-free, every combination returned by `filter_unique_solutions`
has pairwise index-disjoint per-total subsets: the union of all indices
across the combination contains no duplicate index. -/
theorem C6_disjoint (sols : List (List Solution))
    (res : List (List Solution))
    (hok : filter_unique_solutions sols = Except.ok res)
    (hnd : ∀ S ∈ sols, ∀ s ∈ S, s.Nodup) :
    ∀ c ∈ res, c.flatten.Nodup :=
  fun c hc =>
    (filterUniqueAux_disjoint sols ∅ res
      (by simpa [filter_unique_solutions] using hok) hnd c hc).1

/-- C6 (witness): the combination returned for the two singleton
solution sets has the duplicate-free flattened index list `[0, 1]`. -/
theorem C6_witness : ([[0], [1]] : List Solution).flatten.Nodup :=
  C6_disjoint [[[0]], [[1]]] [[[0], [1]]] (by decide) (by decide)
    [[0], [1]] (by decide)
